import Mathlib

/-!
The package `journalhook`: a logrus hook that writes to the systemd journal.

A shallow embedding of `journalhook.go`.

* A Go `string` is its sequence of bytes (`GoString`), a `rune` (`int32`) is an `Int`.
* A Go `map` is the list of its key/value pairs in the order in which `range`
  enumerates them; `mapIndex` is `m[k]` and `mapSet` is `m[k] = v`.
* The pieces of the Go standard library that the source calls (`strings.Map`,
  `strings.HasPrefix`, `strings.TrimPrefix`, `sort.Strings`, `fmt.Sprint`) and the
  constants of `logrus` and `go-systemd/journal` are embedded next to the code
  that uses them.
* The send primitive `journal.Send` is a parameter of `Fire`; `recordingSend` is the
  primitive on a journal with explicit state. The part of the logrus standard logger
  that `enable` acts on (hooks, output sink, level, warnings emitted) is the explicit
  state `Logrus`, and the probe `journal.Enabled()` is a parameter of `enable`.
-/

namespace Journalhook

/-! ## Go strings and the standard library functions the source calls -/

/-- A Go string: a sequence of bytes, each a number below 256. -/
abbrev GoString := List Nat

/-- The replacement rune `utf8.RuneError`, U+FFFD. -/
def RuneError : Int := 0xFFFD

/-- The table `first` and `acceptRanges` of package `unicode/utf8`: for a leading byte
that opens a multi-byte sequence, the length of the sequence and the accepted range of
the second byte; `none` for a byte that cannot open one. -/
def leadInfo (s0 : Nat) : Option (Nat × Nat × Nat) :=
  if 0xC2 ≤ s0 ∧ s0 ≤ 0xDF then some (2, 0x80, 0xBF)
  else if s0 = 0xE0 then some (3, 0xA0, 0xBF)
  else if s0 = 0xED then some (3, 0x80, 0x9F)
  else if 0xE1 ≤ s0 ∧ s0 ≤ 0xEF then some (3, 0x80, 0xBF)
  else if s0 = 0xF0 then some (4, 0x90, 0xBF)
  else if 0xF1 ≤ s0 ∧ s0 ≤ 0xF3 then some (4, 0x80, 0xBF)
  else if s0 = 0xF4 then some (4, 0x80, 0x8F)
  else none

/-- A continuation byte, `locb <= b <= hicb`. -/
def isCont (b : Nat) : Bool := decide (0x80 ≤ b ∧ b ≤ 0xBF)

/-- Go's `utf8.DecodeRuneInString`: the first rune of `s` and its width in bytes.
An invalid or truncated encoding gives `(RuneError, 1)`, the empty string
`(RuneError, 0)`. The masks and shifts of the Go code are written with `%` and `*`. -/
def DecodeRuneInString (s : GoString) : Int × Nat :=
  match s with
  | [] => (RuneError, 0)
  | s0 :: t =>
    if s0 < 0x80 then ((s0 : Int), 1)
    else
      match leadInfo s0 with
      | none => (RuneError, 1)
      | some (sz, lo, hi) =>
        if s.length < sz then (RuneError, 1)
        else
          match t with
          | [] => (RuneError, 1)
          | s1 :: t1 =>
            if s1 < lo ∨ hi < s1 then (RuneError, 1)
            else if sz ≤ 2 then (((s0 % 32 * 64 + s1 % 64 : Nat) : Int), 2)
            else
              match t1 with
              | [] => (RuneError, 1)
              | s2 :: t2 =>
                if !isCont s2 then (RuneError, 1)
                else if sz ≤ 3 then
                  (((s0 % 16 * 4096 + s1 % 64 * 64 + s2 % 64 : Nat) : Int), 3)
                else
                  match t2 with
                  | [] => (RuneError, 1)
                  | s3 :: _ =>
                    if !isCont s3 then (RuneError, 1)
                    else
                      (((s0 % 8 * 262144 + s1 % 64 * 4096 + s2 % 64 * 64 + s3 % 64 : Nat)
                        : Int), 4)

/-- The runes of `s` from a position on, `skip` bytes of an already decoded rune
still to be passed over. -/
def rangeRunesFrom : Nat → GoString → List Int
  | _, [] => []
  | skip + 1, _ :: rest => rangeRunesFrom skip rest
  | 0, b :: rest =>
    (DecodeRuneInString (b :: rest)).1 ::
      rangeRunesFrom ((DecodeRuneInString (b :: rest)).2 - 1) rest

/-- The runes that `for _, c := range s` yields: the string is decoded as UTF-8, and
every byte that does not start a valid encoding yields `RuneError` on its own. -/
def rangeRunes (s : GoString) : List Int := rangeRunesFrom 0 s

/-- Go's `utf8.AppendRune` on an empty buffer: the UTF-8 encoding of a rune; a
surrogate or out-of-range rune is encoded as `RuneError`. -/
def EncodeRune (r : Int) : GoString :=
  let i := (r % 4294967296).toNat
  if i ≤ 0x7F then [i]
  else if i ≤ 0x7FF then [0xC0 + i / 64, 0x80 + i % 64]
  else if 0x10FFFF < i ∨ (0xD800 ≤ i ∧ i ≤ 0xDFFF) then [0xEF, 0xBF, 0xBD]
  else if i ≤ 0xFFFF then [0xE0 + i / 4096, 0x80 + i / 64 % 64, 0x80 + i % 64]
  else [0xF0 + i / 262144, 0x80 + i / 4096 % 64, 0x80 + i / 64 % 64, 0x80 + i % 64]

/-- Go's `strings.Map`: every rune of `s` is replaced by its image under `mapping`,
a rune whose image is negative is dropped. -/
def stringsMap (mapping : Int → Int) (s : GoString) : GoString :=
  (rangeRunes s).flatMap fun c =>
    let r := mapping c
    if 0 ≤ r then EncodeRune r else []

/-- Go's `strings.HasPrefix`. -/
def HasPrefix (s pre : GoString) : Bool :=
  decide (pre.length ≤ s.length) && (s.take pre.length == pre)

/-- Go's `strings.TrimPrefix`. -/
def TrimPrefix (s pre : GoString) : GoString :=
  if HasPrefix s pre then s.drop pre.length else s

/-- The bytes of a string literal (its UTF-8 encoding). -/
def goStr (s : String) : GoString :=
  s.toList.flatMap fun c => EncodeRune (c.toNat : Int)

/-- Go's `<` on strings: byte-wise lexicographic comparison. -/
def strLess : GoString → GoString → Bool
  | [], [] => false
  | [], _ :: _ => true
  | _ :: _, [] => false
  | a :: s, b :: t => decide (a < b) || (a == b && strLess s t)

/-- Insertion of a string into an increasing list. -/
def insertString (k : GoString) : List GoString → List GoString
  | [] => [k]
  | x :: xs => if strLess x k then x :: insertString k xs else k :: x :: xs

/-- Go's `sort.Strings`: the strings in increasing order. -/
def sortStrings (keys : List GoString) : List GoString :=
  keys.foldr insertString []

/-! ## Go maps -/

/-- A Go map, as the list of its pairs in enumeration order. -/
abbrev GoMap (κ ν : Type) := List (κ × ν)

/-- The value stored under `k`, if any. -/
def mapGet {κ ν : Type} [DecidableEq κ] : GoMap κ ν → κ → Option ν
  | [], _ => none
  | (k', v) :: m, k => if k' = k then some v else mapGet m k

/-- The Go expression `m[k]`: the stored value, or the zero value `zero` of the
value type when `k` is absent. It never fails. -/
def mapIndex {κ ν : Type} [DecidableEq κ] (zero : ν) (m : GoMap κ ν) (k : κ) : ν :=
  (mapGet m k).getD zero

/-- The Go statement `m[k] = v`: overwrites the value of an existing key, adds the
pair otherwise. -/
def mapSet {κ ν : Type} [DecidableEq κ] : GoMap κ ν → κ → ν → GoMap κ ν
  | [], k, v => [(k, v)]
  | (k', v') :: m, k, v => if k' = k then (k, v) :: m else (k', v') :: mapSet m k v

/-- The keys of a map. -/
def mapKeys {κ ν : Type} (m : GoMap κ ν) : List κ := m.map Prod.fst

/-! ## Values of type `interface{}` and `fmt.Sprint` -/

/-- A field value (`interface{}`): nil, a boolean, an integer, a string, or a value of
any other type, which is represented by the text that `fmt.Sprint` prints for it. -/
inductive Value where
  | nil : Value
  | bool (b : Bool) : Value
  | int (i : Int) : Value
  | str (s : GoString) : Value
  | other (text : GoString) : Value
deriving DecidableEq, Repr

/-- The base-10 digits of a natural number, as bytes. -/
def decimal (n : Nat) : GoString := (Nat.toDigits 10 n).map Char.toNat

/-- Go's `fmt.Sprint` on one operand: the default format of the value. -/
def Sprint : Value → GoString
  | .nil => goStr "<nil>"
  | .bool true => goStr "true"
  | .bool false => goStr "false"
  | .int (.ofNat n) => decimal n
  | .int (.negSucc n) => 45 :: decimal (n + 1)
  | .str s => s
  | .other text => text

/-! ## journalhook.go -/

/-- The hook: `type JournalHook struct { SortEntries bool }`. -/
structure JournalHook where
  SortEntries : Bool
deriving DecidableEq, Repr

/-- A logrus level (`uint32`). -/
abbrev Level := Nat

/-- The constant `logrus.PanicLevel`. -/
def PanicLevel : Level := 0
/-- The constant `logrus.FatalLevel`. -/
def FatalLevel : Level := 1
/-- The constant `logrus.ErrorLevel`. -/
def ErrorLevel : Level := 2
/-- The constant `logrus.WarnLevel`. -/
def WarnLevel : Level := 3
/-- The constant `logrus.InfoLevel`. -/
def InfoLevel : Level := 4
/-- The constant `logrus.DebugLevel`. -/
def DebugLevel : Level := 5
/-- The constant `logrus.TraceLevel`. -/
def TraceLevel : Level := 6

/-- A journal priority (`int`). -/
abbrev Priority := Int

/-- The constant `journal.PriEmerg`. -/
def PriEmerg : Priority := 0
/-- The constant `journal.PriAlert`. -/
def PriAlert : Priority := 1
/-- The constant `journal.PriCrit`. -/
def PriCrit : Priority := 2
/-- The constant `journal.PriErr`. -/
def PriErr : Priority := 3
/-- The constant `journal.PriWarning`. -/
def PriWarning : Priority := 4
/-- The constant `journal.PriNotice`. -/
def PriNotice : Priority := 5
/-- The constant `journal.PriInfo`. -/
def PriInfo : Priority := 6
/-- The constant `journal.PriDebug`. -/
def PriDebug : Priority := 7

/-- The table `severityMap`, in the order of the source. -/
def severityMap : GoMap Level Priority :=
  [ (DebugLevel, PriDebug),
    (InfoLevel, PriInfo),
    (WarnLevel, PriWarning),
    (ErrorLevel, PriErr),
    (FatalLevel, PriCrit),
    (PanicLevel, PriEmerg) ]

/-- The function `stringifyOp`. -/
def stringifyOp (r : Int) : Int :=
  if r ≥ 65 ∧ r ≤ 90 then r
  else if r ≥ 48 ∧ r ≤ 57 then r
  else if r = 95 then r
  else if r ≥ 97 ∧ r ≤ 122 then r - 32
  else 95

/-- The function `stringifyKey`. -/
def stringifyKey (key : GoString) : GoString :=
  let key := stringsMap stringifyOp key
  if HasPrefix key (goStr "_") then TrimPrefix key (goStr "_") else key

/-- The function `stringifyEntry`. -/
def stringifyEntry (k : GoString) (v : Value) : GoString × GoString :=
  (stringifyKey k, Sprint v)

/-- The function `stringifyEntries`; `data` lists the fields in the order in which
`range data` yields them. -/
def stringifyEntries (data : GoMap GoString Value) (sortEntries : Bool) :
    GoMap GoString GoString :=
  if !sortEntries then
    data.foldl
      (fun entries kv => mapSet entries (stringifyEntry kv.1 kv.2).1 (stringifyEntry kv.1 kv.2).2)
      []
  else
    let keys := data.foldl (fun keys kv => keys ++ [kv.1]) []
    let keys := sortStrings keys
    keys.foldl
      (fun entries k =>
        mapSet entries (stringifyEntry k (mapIndex Value.nil data k)).1
          (stringifyEntry k (mapIndex Value.nil data k)).2)
      []

/-- The send primitive `journal.Send`, a parameter: message, priority and fields to
an error (`none` is Go's `nil`). -/
abbrev SendFn := GoString → Priority → GoMap GoString GoString → Option GoString

/-- A log record, the fields of `logrus.Entry` that the hook reads. -/
structure Entry where
  Message : GoString
  Level : Level
  Data : GoMap GoString Value

/-- The method `Fire`: the result is that of the one call of the send primitive. The
result type `ρ` is `Option GoString` for a send primitive that only returns its error
(`SendFn`), and a function of the journal state for one with explicit state. -/
def Fire {ρ : Type} (send : GoString → Priority → GoMap GoString GoString → ρ)
    (hook : JournalHook) (entry : Entry) : ρ :=
  send entry.Message (mapIndex 0 severityMap entry.Level)
    (stringifyEntries entry.Data hook.SortEntries)

/-- The method `Levels`. -/
def Levels (_hook : JournalHook) : List Level :=
  [PanicLevel, FatalLevel, ErrorLevel, WarnLevel, InfoLevel, DebugLevel]

/-- One call of `journal.Send`: the message, the priority and the fields. -/
structure SendCall where
  message : GoString
  priority : Priority
  fields : GoMap GoString GoString
deriving DecidableEq

/-- The journal as explicit state: the calls of `journal.Send` it has received, in
order. -/
abbrev JournalLog := List SendCall

/-- The primitive `journal.Send` on the journal state: the call is added to the calls
received, and `respond` gives the error returned (`none` is `nil`), which may depend on
the state and on the call. -/
def recordingSend (respond : JournalLog → SendCall → Option GoString) :
    GoString → Priority → GoMap GoString GoString → JournalLog →
      Option GoString × JournalLog :=
  fun message priority fields log =>
    (respond log ⟨message, priority, fields⟩, log ++ [⟨message, priority, fields⟩])

/-- A hook registered with logrus: a `JournalHook`, or a hook of another type. -/
inductive Hook where
  | journal (hook : JournalHook) : Hook
  | foreign (id : Nat) : Hook
deriving DecidableEq, Repr

/-- An output sink (`io.Writer`): standard error (the default of logrus),
`ioutil.Discard`, or another writer. -/
inductive Writer where
  | stderr : Writer
  | discard : Writer
  | custom (id : Nat) : Writer
deriving DecidableEq, Repr

/-- The state of the logrus standard logger that `enable` acts on: the registered
hooks, the output sink, the level of the logger (`InfoLevel` unless it was set), and
the warnings emitted through `logrus.Warning`. -/
structure Logrus where
  hooks : List Hook
  out : Writer
  level : Level
  warnings : List GoString
deriving DecidableEq

/-- The function `logrus.AddHook`: the hook is added after those already registered. -/
def AddHook (fw : Logrus) (hook : Hook) : Logrus :=
  { fw with hooks := fw.hooks ++ [hook] }

/-- The function `logrus.SetOutput`. -/
def SetOutput (fw : Logrus) (out : Writer) : Logrus :=
  { fw with out := out }

/-- The function `logrus.Warning`: the warning is emitted when the level of the logger
enables `WarnLevel` (`logger.level >= WarnLevel`), and nothing happens otherwise. -/
def Warning (fw : Logrus) (msg : GoString) : Logrus :=
  if WarnLevel ≤ fw.level then { fw with warnings := fw.warnings ++ [msg] } else fw

/-- The function `enable`; `journalEnabled` is the result of the probe
`journal.Enabled()`. -/
def enable (journalEnabled : Bool) (sortEntries : Bool) (fw : Logrus) : Logrus :=
  if !journalEnabled then
    Warning fw (goStr "Journal not available but user requests we log to it. Ignoring")
  else
    SetOutput (AddHook fw (Hook.journal { SortEntries := sortEntries })) Writer.discard

/-- The function `Enable`. -/
def Enable (journalEnabled : Bool) (fw : Logrus) : Logrus :=
  enable journalEnabled false fw

/-- The function `EnableSortEntries`. -/
def EnableSortEntries (journalEnabled : Bool) (fw : Logrus) : Logrus :=
  enable journalEnabled true fw

/-! ## Predicates used to state the properties -/

/-- A byte that a journal field name may contain: `A-Z`, `0-9` or `_`. -/
def isKeyByte (b : Nat) : Bool :=
  decide ((65 ≤ b ∧ b ≤ 90) ∨ (48 ≤ b ∧ b ≤ 57) ∨ b = 95)

/-- The invariant of the data model on one field-name key: non-empty, only `A-Z`,
`0-9` and `_`, and no leading `_`. -/
def journalLegalKey (key : GoString) : Prop :=
  key ≠ [] ∧ (∀ b ∈ key, isKeyByte b = true) ∧ key.head? ≠ some 95

/-- An ASCII letter or digit. -/
def isAlnum (r : Int) : Bool :=
  decide ((65 ≤ r ∧ r ≤ 90) ∨ (97 ≤ r ∧ r ≤ 122) ∨ (48 ≤ r ∧ r ≤ 57))

/-- One of the first two characters of the name is an ASCII letter or digit. -/
def alnumInFirstTwo (k : GoString) : Bool :=
  ((rangeRunes k).take 2).any isAlnum

/-- A decimal digit, `0-9`. -/
def isDigitByte (b : Nat) : Bool := decide (48 ≤ b ∧ b ≤ 57)

/-- The number that a sequence of decimal digits denotes, most significant digit
first. -/
def digitsValue (ds : GoString) : Nat :=
  ds.foldl (fun acc d => 10 * acc + (d - 48)) 0

/-- The character-wise image of a name under `stringifyOp`. -/
def mappedRunes (k : GoString) : List Int := (rangeRunes k).map stringifyOp

/-- The order `a <= b` on strings, as `!(b < a)`. -/
def strLe (a b : GoString) : Prop := strLess b a = false

instance : DecidableRel strLe := fun a b => inferInstanceAs (Decidable (strLess b a = false))

/-- The value that a sequence of writes `m[p.1] = p.2` leaves under `k`: the one of
the last write to `k`. -/
def lastWrite {κ ν : Type} [DecidableEq κ] : List (κ × ν) → κ → Option ν
  | [], _ => none
  | p :: ps, k =>
    match lastWrite ps k with
    | some v => some v
    | none => if p.1 = k then some p.2 else none

/-- The name/value pairs of a field set after `stringifyEntry`. -/
def entryPairs (data : GoMap GoString Value) : List (GoString × GoString) :=
  data.map fun kv => stringifyEntry kv.1 kv.2

/-! ## Lemmas on the library functions -/

theorem stringifyOp_cases (r : Int) :
    stringifyOp r =
      if 97 ≤ r ∧ r ≤ 122 then r - 32
      else if (65 ≤ r ∧ r ≤ 90) ∨ (48 ≤ r ∧ r ≤ 57) ∨ r = 95 then r
      else 95 := by
  unfold stringifyOp
  split_ifs <;> omega

theorem stringifyOp_bounds (r : Int) : 0 ≤ stringifyOp r ∧ stringifyOp r < 128 := by
  unfold stringifyOp
  split_ifs <;> omega

theorem stringifyOp_keyByte (r : Int) : isKeyByte (stringifyOp r).toNat = true := by
  unfold stringifyOp isKeyByte
  split_ifs <;> simp <;> omega

theorem EncodeRune_ascii (r : Int) (h0 : 0 ≤ r) (h1 : r < 128) :
    EncodeRune r = [r.toNat] := by
  unfold EncodeRune
  have h : r % 4294967296 = r := Int.emod_eq_of_lt h0 (by omega)
  simp only [h]
  rw [if_pos (by omega)]

theorem DecodeRuneInString_ascii (b : Nat) (rest : GoString) (h : b < 128) :
    DecodeRuneInString (b :: rest) = ((b : Int), 1) := by
  simp [DecodeRuneInString, h]

theorem rangeRunes_cons_ascii (b : Nat) (rest : GoString) (h : b < 128) :
    rangeRunes (b :: rest) = (b : Int) :: rangeRunes rest := by
  simp [rangeRunes, rangeRunesFrom, DecodeRuneInString_ascii b rest h]

theorem rangeRunes_ascii (s : GoString) (h : ∀ b ∈ s, b < 128) :
    rangeRunes s = s.map Int.ofNat := by
  induction s with
  | nil => rfl
  | cons b rest ih =>
    rw [rangeRunes_cons_ascii b rest (h b (by simp)), ih (fun c hc => h c (by simp [hc]))]
    rfl

theorem flatMap_encode (l : List Int) :
    (l.flatMap fun c => if 0 ≤ stringifyOp c then EncodeRune (stringifyOp c) else []) =
      l.map fun c => (stringifyOp c).toNat := by
  induction l with
  | nil => rfl
  | cons c l ih =>
    rw [List.flatMap_cons, ih, if_pos (stringifyOp_bounds c).1,
      EncodeRune_ascii _ (stringifyOp_bounds c).1 (stringifyOp_bounds c).2]
    rfl

/-- The image of a string under `strings.Map(stringifyOp, ·)`, rune by rune. -/
theorem stringsMap_stringifyOp (s : GoString) :
    stringsMap stringifyOp s = (rangeRunes s).map fun c => (stringifyOp c).toNat := by
  unfold stringsMap
  exact flatMap_encode (rangeRunes s)

theorem rangeRunes_stringsMap (s : GoString) :
    rangeRunes (stringsMap stringifyOp s) = (rangeRunes s).map stringifyOp := by
  rw [stringsMap_stringifyOp, rangeRunes_ascii]
  · rw [List.map_map]
    apply List.map_congr_left
    intro c _
    simp only [Function.comp]
    exact Int.toNat_of_nonneg (stringifyOp_bounds c).1
  · intro b hb
    obtain ⟨c, _, rfl⟩ := List.mem_map.1 hb
    have := stringifyOp_bounds c
    omega

theorem goStr_underscore : goStr "_" = [95] := by decide

theorem HasPrefix_underscore (m : GoString) :
    HasPrefix m [95] = decide (m.head? = some 95) := by
  cases m with
  | nil => rfl
  | cons b t =>
    by_cases h : b = 95 <;> simp [HasPrefix, h]

theorem TrimPrefix_underscore (m : GoString) (h : m.head? = some 95) :
    TrimPrefix m [95] = m.tail := by
  cases m with
  | nil => simp at h
  | cons b t =>
    simp [TrimPrefix, HasPrefix_underscore, h]

/-- The result of `stringifyKey` in terms of the mapped string. -/
theorem stringifyKey_eq (k : GoString) :
    stringifyKey k =
      if (stringsMap stringifyOp k).head? = some 95 then (stringsMap stringifyOp k).tail
      else stringsMap stringifyOp k := by
  unfold stringifyKey
  simp only [goStr_underscore, HasPrefix_underscore]
  by_cases h : (stringsMap stringifyOp k).head? = some 95
  · simp only [h, decide_True, if_true]
    exact TrimPrefix_underscore _ h
  · simp [h]

theorem stringsMap_keyBytes (k : GoString) :
    ∀ b ∈ stringsMap stringifyOp k, isKeyByte b = true := by
  intro b hb
  rw [stringsMap_stringifyOp] at hb
  obtain ⟨c, _, rfl⟩ := List.mem_map.1 hb
  exact stringifyOp_keyByte c

theorem stringifyKey_keyBytes (k : GoString) :
    ∀ b ∈ stringifyKey k, isKeyByte b = true := by
  intro b hb
  rw [stringifyKey_eq] at hb
  split_ifs at hb
  · exact stringsMap_keyBytes k b (List.mem_of_mem_tail hb)
  · exact stringsMap_keyBytes k b hb

/-! ## Lemmas on maps -/

theorem mapGet_mapSet {κ ν : Type} [DecidableEq κ] (m : GoMap κ ν) (k k' : κ) (v : ν) :
    mapGet (mapSet m k v) k' = if k = k' then some v else mapGet m k' := by
  induction m with
  | nil => simp [mapSet, mapGet]
  | cons p m ih =>
    obtain ⟨a, b⟩ := p
    by_cases h : a = k
    · subst h
      by_cases h2 : a = k' <;> simp [mapSet, mapGet, h2]
    · simp only [mapSet, if_neg h, mapGet, ih]
      by_cases h2 : a = k'
      · subst h2
        simp [Ne.symm h]
      · simp [h2]

theorem mem_mapKeys_mapSet {κ ν : Type} [DecidableEq κ] (m : GoMap κ ν) (k k' : κ) (v : ν) :
    k' ∈ mapKeys (mapSet m k v) ↔ k' = k ∨ k' ∈ mapKeys m := by
  induction m with
  | nil => simp [mapSet, mapKeys]
  | cons p m ih =>
    obtain ⟨a, b⟩ := p
    by_cases h : a = k
    · subst h
      simp [mapSet, mapKeys]
    · simp only [mapKeys] at ih
      simp only [mapSet, if_neg h, mapKeys, List.map_cons, List.mem_cons, ih]
      tauto

theorem mapGet_foldl {κ ν : Type} [DecidableEq κ] (ps : List (κ × ν)) (m : GoMap κ ν)
    (k : κ) :
    mapGet (ps.foldl (fun m p => mapSet m p.1 p.2) m) k =
      match lastWrite ps k with
      | some v => some v
      | none => mapGet m k := by
  induction ps generalizing m with
  | nil => simp [lastWrite]
  | cons p ps ih =>
    rw [List.foldl_cons, ih, mapGet_mapSet]
    simp only [lastWrite]
    cases lastWrite ps k with
    | some v => rfl
    | none => by_cases h : p.1 = k <;> simp [h]

theorem mem_mapKeys_foldl {κ ν : Type} [DecidableEq κ] (ps : List (κ × ν)) (m : GoMap κ ν)
    (k : κ) :
    k ∈ mapKeys (ps.foldl (fun m p => mapSet m p.1 p.2) m) ↔
      k ∈ mapKeys m ∨ ∃ p ∈ ps, p.1 = k := by
  induction ps generalizing m with
  | nil => simp
  | cons p ps ih =>
    rw [List.foldl_cons, ih, mem_mapKeys_mapSet]
    simp only [List.mem_cons, exists_eq_or_imp]
    constructor
    · rintro ((h | h) | h)
      · exact Or.inr (Or.inl h.symm)
      · exact Or.inl h
      · exact Or.inr (Or.inr h)
    · rintro (h | h | h)
      · exact Or.inl (Or.inr h)
      · exact Or.inl (Or.inl h.symm)
      · exact Or.inr h

theorem lastWrite_eq_none {κ ν : Type} [DecidableEq κ] (ps : List (κ × ν)) (k : κ) :
    lastWrite ps k = none ↔ ∀ p ∈ ps, p.1 ≠ k := by
  induction ps with
  | nil => simp [lastWrite]
  | cons p ps ih =>
    simp only [lastWrite, List.mem_cons, forall_eq_or_imp]
    cases h : lastWrite ps k with
    | some v =>
      constructor
      · intro h'
        cases h'
      · rintro ⟨_, hall⟩
        rw [ih.2 hall] at h
        cases h
    | none =>
      have hall := ih.1 h
      by_cases hp : p.1 = k
      · simp [hp]
      · simp only [if_neg hp, true_iff]
        exact ⟨hp, hall⟩

theorem lastWrite_mem {κ ν : Type} [DecidableEq κ] (ps : List (κ × ν)) (k : κ) (v : ν)
    (h : lastWrite ps k = some v) : ∃ p ∈ ps, p.1 = k ∧ p.2 = v := by
  induction ps with
  | nil => simp [lastWrite] at h
  | cons p ps ih =>
    cases hl : lastWrite ps k with
    | some w =>
      simp only [lastWrite, hl] at h
      have hwv : w = v := Option.some.inj h
      subst hwv
      obtain ⟨q, hq, hq1, hq2⟩ := ih hl
      exact ⟨q, List.mem_cons_of_mem _ hq, hq1, hq2⟩
    | none =>
      simp only [lastWrite, hl] at h
      by_cases hp : p.1 = k
      · rw [if_pos hp] at h
        exact ⟨p, List.mem_cons_self _ _, hp, Option.some.inj h⟩
      · rw [if_neg hp] at h
        cases h

theorem mapGet_eq_some_iff {κ ν : Type} [DecidableEq κ] (m : GoMap κ ν)
    (hnd : (mapKeys m).Nodup) (k : κ) (v : ν) :
    mapGet m k = some v ↔ (k, v) ∈ m := by
  induction m with
  | nil => simp [mapGet]
  | cons p m ih =>
    obtain ⟨a, b⟩ := p
    simp only [mapKeys, List.map_cons, List.nodup_cons, List.mem_map, not_exists, not_and]
      at hnd
    have ih2 := ih hnd.2
    simp only [mapGet, List.mem_cons, Prod.mk.injEq]
    by_cases h : a = k
    · subst h
      simp only [if_true, Option.some.injEq, true_and]
      constructor
      · intro hb
        exact Or.inl hb.symm
      · rintro (hb | hb)
        · exact hb.symm
        · exact absurd rfl (hnd.1 (a, v) hb)
    · simp only [if_neg h, ih2]
      constructor
      · exact Or.inr
      · rintro (hb | hb)
        · exact absurd hb.1.symm h
        · exact hb

theorem mapGet_perm {κ ν : Type} [DecidableEq κ] (m₁ m₂ : GoMap κ ν) (hp : m₁.Perm m₂)
    (hnd : (mapKeys m₁).Nodup) (k : κ) : mapGet m₁ k = mapGet m₂ k := by
  have hnd2 : (mapKeys m₂).Nodup := (hp.map Prod.fst).nodup_iff.1 hnd
  apply Option.ext
  intro v
  rw [Option.mem_def, Option.mem_def, mapGet_eq_some_iff m₁ hnd, mapGet_eq_some_iff m₂ hnd2]
  exact hp.mem_iff

/-! ## The order on strings and `sort.Strings` -/

theorem strLess_irrefl (a : GoString) : strLess a a = false := by
  induction a with
  | nil => rfl
  | cons x s ih => simp [strLess, ih]

theorem strLess_asymm (a b : GoString) (h : strLess a b = true) : strLess b a = false := by
  induction a generalizing b with
  | nil => cases b <;> simp [strLess] at h ⊢
  | cons x s ih =>
    cases b with
    | nil => simp [strLess] at h
    | cons y t =>
      simp only [strLess, Bool.or_eq_true, decide_eq_true_eq, Bool.and_eq_true, beq_iff_eq]
        at h
      simp only [strLess, Bool.or_eq_false_iff, decide_eq_false_iff_not,
        Bool.and_eq_false_iff, beq_eq_false_iff_ne]
      rcases h with h | ⟨h1, h2⟩
      · exact ⟨by omega, Or.inl (by omega)⟩
      · exact ⟨by omega, Or.inr (ih t h2)⟩

theorem strLess_trans (a b c : GoString) (h1 : strLess a b = true)
    (h2 : strLess b c = true) : strLess a c = true := by
  induction a generalizing b c with
  | nil =>
    cases b with
    | nil => simp [strLess] at h1
    | cons y t =>
      cases c with
      | nil => simp [strLess] at h2
      | cons z u => rfl
  | cons x s ih =>
    cases b with
    | nil => simp [strLess] at h1
    | cons y t =>
      cases c with
      | nil => simp [strLess] at h2
      | cons z u =>
        simp only [strLess, Bool.or_eq_true, decide_eq_true_eq, Bool.and_eq_true,
          beq_iff_eq] at h1 h2 ⊢
        rcases h1 with h1 | ⟨e1, h1⟩
        · rcases h2 with h2 | ⟨e2, _⟩
          · exact Or.inl (by omega)
          · exact Or.inl (by omega)
        · rcases h2 with h2 | ⟨e2, h2⟩
          · exact Or.inl (by omega)
          · exact Or.inr ⟨by omega, ih t u h1 h2⟩

theorem strLess_connex (a b : GoString) (h1 : strLess a b = false)
    (h2 : strLess b a = false) : a = b := by
  induction a generalizing b with
  | nil =>
    cases b with
    | nil => rfl
    | cons y t => simp [strLess] at h1
  | cons x s ih =>
    cases b with
    | nil => simp [strLess] at h2
    | cons y t =>
      simp only [strLess, Bool.or_eq_false_iff, decide_eq_false_iff_not,
        Bool.and_eq_false_iff, beq_eq_false_iff_ne] at h1 h2
      have hxy : x = y := by omega
      subst hxy
      have e1 : strLess s t = false := by
        rcases h1.2 with h | h
        · exact absurd rfl h
        · exact h
      have e2 : strLess t s = false := by
        rcases h2.2 with h | h
        · exact absurd rfl h
        · exact h
      rw [ih t e1 e2]

theorem strLe_refl (a : GoString) : strLe a a := strLess_irrefl a

theorem strLe_total (a b : GoString) : strLe a b ∨ strLe b a := by
  unfold strLe
  cases h : strLess b a with
  | false => exact Or.inl rfl
  | true => exact Or.inr (strLess_asymm b a h)

theorem strLe_antisymm (a b : GoString) (h1 : strLe a b) (h2 : strLe b a) : a = b :=
  strLess_connex a b h2 h1

theorem strLe_trans (a b c : GoString) (h1 : strLe a b) (h2 : strLe b c) : strLe a c := by
  unfold strLe at *
  cases h : strLess c a with
  | false => rfl
  | true =>
    cases hab : strLess a b with
    | true =>
      have := strLess_trans c a b h hab
      rw [h2] at this
      cases this
    | false =>
      have e : a = b := strLess_connex a b hab h1
      subst e
      rw [h2] at h
      cases h

instance : IsTotal GoString strLe := ⟨strLe_total⟩

instance : IsTrans GoString strLe := ⟨strLe_trans⟩

instance : IsAntisymm GoString strLe := ⟨strLe_antisymm⟩

theorem insertString_eq (k : GoString) (l : List GoString) :
    insertString k l = List.orderedInsert strLe k l := by
  induction l with
  | nil => rfl
  | cons x xs ih =>
    simp only [insertString, List.orderedInsert, strLe, ih]
    by_cases h : strLess x k = true
    · rw [if_pos h, if_neg (by simp [h])]
    · rw [if_neg h, if_pos (by simpa using h)]

theorem sortStrings_eq (l : List GoString) : sortStrings l = List.insertionSort strLe l := by
  induction l with
  | nil => rfl
  | cons x xs ih =>
    simp only [sortStrings, List.foldr_cons, List.insertionSort] at ih ⊢
    rw [ih, insertString_eq]

theorem sortStrings_perm (l : List GoString) : (sortStrings l).Perm l := by
  rw [sortStrings_eq]
  exact List.perm_insertionSort strLe l

theorem sortStrings_sorted (l : List GoString) : (sortStrings l).Sorted strLe := by
  rw [sortStrings_eq]
  exact List.sorted_insertionSort strLe l

theorem sortStrings_congr (l₁ l₂ : List GoString) (h : l₁.Perm l₂) :
    sortStrings l₁ = sortStrings l₂ :=
  List.eq_of_perm_of_sorted
    (((sortStrings_perm l₁).trans h).trans (sortStrings_perm l₂).symm)
    (sortStrings_sorted l₁) (sortStrings_sorted l₂)

/-! ## Lemmas on `stringifyEntries` -/

theorem collect_keys (data : GoMap GoString Value) (acc : List GoString) :
    data.foldl (fun keys kv => keys ++ [kv.1]) acc = acc ++ mapKeys data := by
  induction data generalizing acc with
  | nil => simp [mapKeys]
  | cons kv data ih =>
    rw [List.foldl_cons, ih]
    simp [mapKeys]

/-- Without sorting, the result is the writes of the fields in enumeration order. -/
theorem stringifyEntries_unsorted (data : GoMap GoString Value) :
    stringifyEntries data false =
      (entryPairs data).foldl (fun m p => mapSet m p.1 p.2) [] := by
  simp only [stringifyEntries, entryPairs, List.foldl_map]
  rfl

/-- With sorting, the result is the writes of the fields in increasing order of the
names. -/
theorem stringifyEntries_sorted (data : GoMap GoString Value) :
    stringifyEntries data true =
      ((sortStrings (mapKeys data)).map fun k =>
        stringifyEntry k (mapIndex Value.nil data k)).foldl
          (fun m p => mapSet m p.1 p.2) [] := by
  simp only [stringifyEntries, List.foldl_map, collect_keys, List.nil_append]
  rfl

/-- Membership in the key set of the result, for both modes. -/
theorem mem_keys_stringifyEntries (data : GoMap GoString Value) (sortEntries : Bool)
    (key : GoString) :
    key ∈ mapKeys (stringifyEntries data sortEntries) ↔
      ∃ kv ∈ data, stringifyKey kv.1 = key := by
  cases sortEntries with
  | false =>
    rw [stringifyEntries_unsorted, mem_mapKeys_foldl]
    simp only [mapKeys, List.map_nil, List.not_mem_nil, false_or, entryPairs, List.mem_map,
      exists_exists_and_eq_and, stringifyEntry]
  | true =>
    rw [stringifyEntries_sorted, mem_mapKeys_foldl]
    simp only [mapKeys, List.map_nil, List.not_mem_nil, false_or, List.mem_map,
      exists_exists_and_eq_and, stringifyEntry]
    constructor
    · rintro ⟨name, hname, rfl⟩
      have hmem : name ∈ mapKeys data := (sortStrings_perm (mapKeys data)).mem_iff.1 hname
      obtain ⟨kv, hkv, rfl⟩ := List.mem_map.1 hmem
      exact ⟨kv, hkv, rfl⟩
    · rintro ⟨kv, hkv, rfl⟩
      refine ⟨kv.1, ?_, rfl⟩
      exact (sortStrings_perm (mapKeys data)).mem_iff.2 (List.mem_map.2 ⟨kv, hkv, rfl⟩)

/-! ## Lemmas on `stringifyKey` -/

theorem toNat_stringifyOp_eq (r : Int) : (stringifyOp r).toNat = 95 ↔ stringifyOp r = 95 := by
  have := stringifyOp_bounds r
  omega

/-- The key in terms of the character-wise image of the name. -/
theorem stringifyKey_runes (k : GoString) :
    stringifyKey k =
      (if (mappedRunes k).head? = some 95 then (mappedRunes k).tail
        else mappedRunes k).map Int.toNat := by
  rw [stringifyKey_eq, stringsMap_stringifyOp]
  unfold mappedRunes
  cases rangeRunes k with
  | nil => rfl
  | cons r R =>
    have hmm : List.map (fun c => (stringifyOp c).toNat) R =
        List.map Int.toNat (List.map stringifyOp R) := by
      rw [List.map_map]
      rfl
    simp only [List.map_cons, List.head?_cons, Option.some.injEq, List.tail_cons,
      toNat_stringifyOp_eq, hmm]
    by_cases h : stringifyOp r = 95
    · simp only [h, if_true]
    · simp only [h, if_false, List.map_cons]


theorem isAlnum_stringifyOp (r : Int) (h : isAlnum r = true) : (stringifyOp r).toNat ≠ 95 := by
  unfold isAlnum at h
  simp only [decide_eq_true_eq] at h
  unfold stringifyOp
  split_ifs <;> omega

/-- A name with a letter or digit among its first two characters gets a legal key. -/
theorem stringifyKey_legal (k : GoString) (h : alnumInFirstTwo k = true) :
    journalLegalKey (stringifyKey k) := by
  refine ⟨?_, stringifyKey_keyBytes k, ?_⟩
  all_goals
    rw [stringifyKey_eq, stringsMap_stringifyOp]
    unfold alnumInFirstTwo at h
    revert h
    cases rangeRunes k with
    | nil => simp
    | cons r R =>
      cases R with
      | nil =>
        intro h
        have h1 : isAlnum r = true := by simpa using h
        have := isAlnum_stringifyOp r h1
        simp [this]
      | cons r2 R2 =>
        intro h
        have h1 : isAlnum r = true ∨ isAlnum r2 = true := by simpa using h
        by_cases e : (stringifyOp r).toNat = 95
        · have h2 : isAlnum r2 = true := by
            rcases h1 with h1 | h1
            · exact absurd e (isAlnum_stringifyOp r h1)
            · exact h1
          have := isAlnum_stringifyOp r2 h2
          simp [e, this]
        · simp [e]

theorem stringifyKey_lower (k : GoString) (h : ∀ b ∈ k, 97 ≤ b ∧ b ≤ 122) :
    stringifyKey k = k.map fun b => b - 32 := by
  have hr : rangeRunes k = k.map Int.ofNat :=
    rangeRunes_ascii k (fun b hb => by have := h b hb; omega)
  have hm : stringsMap stringifyOp k = k.map fun b => b - 32 := by
    rw [stringsMap_stringifyOp, hr, List.map_map]
    apply List.map_congr_left
    intro b hb
    have := h b hb
    simp only [Function.comp, stringifyOp, Int.ofNat_eq_coe]
    split_ifs <;> omega
  rw [stringifyKey_eq, hm]
  cases k with
  | nil => rfl
  | cons b t =>
    have := h b (List.mem_cons_self _ _)
    have hne : b - 32 ≠ 95 := by omega
    simp [hne]

/-- The value under a key of the result of a sequence of writes into the empty map. -/
theorem mapGet_writes {κ ν : Type} [DecidableEq κ] (ps : List (κ × ν)) (k : κ) :
    mapGet (ps.foldl (fun m p => mapSet m p.1 p.2) []) k = lastWrite ps k := by
  rw [mapGet_foldl]
  cases lastWrite ps k <;> rfl

/-- In a list sorted increasingly, the last write to a key comes from the greatest
element that writes to it. -/
theorem lastWrite_sorted {α κ ν : Type} [DecidableEq κ] (r : α → α → Prop)
    (hrefl : ∀ a, r a a) (g : α → κ × ν) (L : List α) (hs : L.Sorted r) (key : κ) (v : ν)
    (h : lastWrite (L.map g) key = some v) :
    ∃ x ∈ L, (g x).1 = key ∧ (g x).2 = v ∧ ∀ y ∈ L, (g y).1 = key → r y x := by
  induction L with
  | nil => simp [lastWrite] at h
  | cons a L ih =>
    have hs2 := List.sorted_cons.1 hs
    cases hl : lastWrite (L.map g) key with
    | some w =>
      simp only [List.map_cons, lastWrite, hl] at h
      have hwv : w = v := Option.some.inj h
      subst hwv
      obtain ⟨x, hx, hx1, hx2, hx3⟩ := ih hs2.2 hl
      refine ⟨x, List.mem_cons_of_mem _ hx, hx1, hx2, ?_⟩
      intro y hy hyk
      rcases List.mem_cons.1 hy with e | hy'
      · rw [e]
        exact hs2.1 x hx
      · exact hx3 y hy' hyk
    | none =>
      simp only [List.map_cons, lastWrite, hl] at h
      by_cases hp : (g a).1 = key
      · rw [if_pos hp] at h
        refine ⟨a, List.mem_cons_self _ _, hp, Option.some.inj h, ?_⟩
        intro y hy hyk
        rcases List.mem_cons.1 hy with e | hy'
        · rw [e]
          exact hrefl a
        · exact absurd hyk ((lastWrite_eq_none _ _).1 hl (g y) (List.mem_map.2 ⟨y, hy', rfl⟩))
      · rw [if_neg hp] at h
        cases h

/-- The last write to a key whose writes all carry the same value. -/
theorem lastWrite_const {κ ν : Type} [DecidableEq κ] (ps : List (κ × ν)) (p : κ × ν)
    (hp : p ∈ ps) (hall : ∀ q ∈ ps, q.1 = p.1 → q.2 = p.2) :
    lastWrite ps p.1 = some p.2 := by
  cases hl : lastWrite ps p.1 with
  | none => exact absurd rfl ((lastWrite_eq_none ps p.1).1 hl p hp)
  | some v =>
    obtain ⟨q, hq, hq1, hq2⟩ := lastWrite_mem ps p.1 v hl
    rw [← hq2, hall q hq hq1]

/-! ## The claims -/

/-- C1, counterexample: the field set with the two names `__x` and the empty name gives,
in both modes, the keys `_X` and the empty key; the first begins with `_`, the second is
empty, so neither satisfies the invariant. -/
theorem stringifyEntries_illegal_keys :
    stringifyEntries [(goStr "__x", Value.int 1), (goStr "", Value.bool true)] false =
        [(goStr "_X", goStr "1"), (goStr "", goStr "true")] ∧
      stringifyEntries [(goStr "__x", Value.int 1), (goStr "", Value.bool true)] true =
        [(goStr "", goStr "true"), (goStr "_X", goStr "1")] ∧
      ¬ journalLegalKey (goStr "_X") ∧ ¬ journalLegalKey (goStr "") := by
  refine ⟨by decide, by decide, ?_, ?_⟩
  · intro h
    exact h.2.2 (by decide)
  · intro h
    exact h.1 (by decide)

/-- C1, amended: for every field set and both values of `sortEntries`, every key of the
returned mapping contains only `A-Z`, `0-9` and `_` and is the `stringifyKey` image of a
field name; when a name it comes from has a letter or digit among its first two
characters, the key is moreover non-empty and does not begin with `_`. -/
theorem stringifyEntries_keys (data : GoMap GoString Value) (sortEntries : Bool)
    (key : GoString) (h : key ∈ mapKeys (stringifyEntries data sortEntries)) :
    (∀ b ∈ key, isKeyByte b = true) ∧
      (∃ kv ∈ data, stringifyKey kv.1 = key) ∧
      ∀ kv ∈ data, stringifyKey kv.1 = key → alnumInFirstTwo kv.1 = true →
        journalLegalKey key := by
  obtain ⟨kv, hkv, rfl⟩ := (mem_keys_stringifyEntries data sortEntries key).1 h
  refine ⟨stringifyKey_keyBytes kv.1, ⟨kv, hkv, rfl⟩, ?_⟩
  intro kv' _ hk hgood
  rw [← hk]
  exact stringifyKey_legal kv'.1 hgood

/-- C1, amended, at the field set `{"_internal": 7}` with sorting: its key `INTERNAL`
comes from a name whose second character is a letter, and is legal. -/
theorem stringifyEntries_keys_witness :
    goStr "INTERNAL" ∈ mapKeys (stringifyEntries [(goStr "_internal", Value.int 7)] true) ∧
      stringifyKey (goStr "_internal") = goStr "INTERNAL" ∧
      alnumInFirstTwo (goStr "_internal") = true ∧
      (∀ b ∈ goStr "INTERNAL", isKeyByte b = true) ∧
      journalLegalKey (goStr "INTERNAL") :=
  ⟨by decide, by decide, by decide,
    (stringifyEntries_keys [(goStr "_internal", Value.int 7)] true (goStr "INTERNAL")
      (by decide)).1,
    (stringifyEntries_keys [(goStr "_internal", Value.int 7)] true (goStr "INTERNAL")
      (by decide)).2.2 (goStr "_internal", Value.int 7) (by decide) (by decide) (by decide)⟩

/-- C2: `stringifyOp` folds `a-z` to the uppercase letter `r - 32`, keeps `A-Z`, `0-9`
and `_`, and sends every other rune (non-ASCII ones included) to `_`; mapping it over a
string gives the rune-wise image, with as many characters (and bytes) as the string has
characters; `my-key.ok` sanitises to `MY_KEY_OK`. -/
theorem stringifyOp_spec :
    (∀ r : Int,
      if 97 ≤ r ∧ r ≤ 122 then stringifyOp r = r - 32 ∧ 65 ≤ r - 32 ∧ r - 32 ≤ 90
      else if (65 ≤ r ∧ r ≤ 90) ∨ (48 ≤ r ∧ r ≤ 57) ∨ r = 95 then stringifyOp r = r
      else stringifyOp r = 95) ∧
      (∀ s : GoString, rangeRunes (stringsMap stringifyOp s) = (rangeRunes s).map stringifyOp) ∧
      (∀ s : GoString,
        (rangeRunes (stringsMap stringifyOp s)).length = (rangeRunes s).length ∧
        (stringsMap stringifyOp s).length = (rangeRunes s).length) ∧
      stringsMap stringifyOp (goStr "my-key.ok") = goStr "MY_KEY_OK" ∧
      stringifyKey (goStr "my-key.ok") = goStr "MY_KEY_OK" := by
  refine ⟨?_, rangeRunes_stringsMap, ?_, by decide, by decide⟩
  · intro r
    rw [stringifyOp_cases]
    split_ifs <;> first | rfl | omega
  · intro s
    constructor
    · rw [rangeRunes_stringsMap, List.length_map]
    · rw [stringsMap_stringifyOp, List.length_map]

/-- C3: `stringifyKey` removes exactly one leading underscore: with `m` the
character-wise image of `k` under `stringifyOp`, the characters of `stringifyKey k` are
`m` without its first character when `m` begins with `_`, and `m` otherwise (and the
key consists of exactly these one-byte characters). `_internal` gives `INTERNAL` and
`__x` gives `_X`. -/
theorem stringifyKey_strips_one (k : GoString) :
    rangeRunes (stringifyKey k) =
        (if (mappedRunes k).head? = some 95 then (mappedRunes k).tail else mappedRunes k) ∧
      stringifyKey k =
        (if (mappedRunes k).head? = some 95 then (mappedRunes k).tail
          else mappedRunes k).map Int.toNat ∧
      stringifyKey (goStr "_internal") = goStr "INTERNAL" ∧
      stringifyKey (goStr "__x") = goStr "_X" := by
  refine ⟨?_, stringifyKey_runes k, by decide, by decide⟩
  have hsub : ∀ l : List Int, (∀ c ∈ l, 0 ≤ c ∧ c < 128) →
      rangeRunes (l.map Int.toNat) = l := by
    intro l hl
    rw [rangeRunes_ascii]
    · rw [List.map_map]
      conv_rhs => rw [← List.map_id l]
      apply List.map_congr_left
      intro c hc
      have := hl c hc
      simp only [Function.comp, Int.ofNat_eq_coe, id]
      omega
    · intro b hb
      obtain ⟨c, hc, rfl⟩ := List.mem_map.1 hb
      have := hl c hc
      omega
  have hall : ∀ c ∈ mappedRunes k, 0 ≤ c ∧ c < 128 := by
    intro c hc
    obtain ⟨r, _, rfl⟩ := List.mem_map.1 hc
    exact stringifyOp_bounds r
  rw [stringifyKey_runes]
  apply hsub
  intro c hc
  split_ifs at hc
  · exact hall c (List.mem_of_mem_tail hc)
  · exact hall c hc

/-- C4: a field name made only of the letters `a-z` (the empty name included) is
sanitised to its uppercase form (every byte lowered by 32), of the same length. -/
theorem stringifyKey_lowercase (k : GoString) (h : ∀ b ∈ k, 97 ≤ b ∧ b ≤ 122) :
    stringifyKey k = k.map (fun b => b - 32) ∧ (stringifyKey k).length = k.length := by
  rw [stringifyKey_lower k h]
  exact ⟨rfl, List.length_map _ _⟩

/-- C4 at the name `path`, which gives `PATH`. -/
theorem stringifyKey_lowercase_witness :
    (∀ b ∈ goStr "path", 97 ≤ b ∧ b ≤ 122) ∧
      stringifyKey (goStr "path") = (goStr "path").map (fun b => b - 32) ∧
      (stringifyKey (goStr "path")).length = (goStr "path").length :=
  ⟨by decide, stringifyKey_lowercase (goStr "path") (by decide)⟩

/-- C5: with `sortEntries = true` the result does not depend on the order in which the
map yields its fields: two enumerations of the same name/value pairs, with distinct
names, give equal mappings (hence equal serialisations, in key order or any other). -/
theorem stringifyEntries_sorted_order_independent (d₁ d₂ : GoMap GoString Value)
    (hp : d₁.Perm d₂) (hnd : (mapKeys d₁).Nodup) :
    stringifyEntries d₁ true = stringifyEntries d₂ true := by
  rw [stringifyEntries_sorted, stringifyEntries_sorted,
    sortStrings_congr (mapKeys d₁) (mapKeys d₂) (hp.map Prod.fst)]
  congr 1
  apply List.map_congr_left
  intro k _
  simp only [mapIndex, mapGet_perm d₁ d₂ hp hnd k]

/-- C5 at the field set `{"b": 1, "a": true}` enumerated in both orders. -/
theorem stringifyEntries_sorted_order_independent_witness :
    List.Perm [(goStr "b", Value.int 1), (goStr "a", Value.bool true)]
        [(goStr "a", Value.bool true), (goStr "b", Value.int 1)] ∧
      (mapKeys [(goStr "b", Value.int 1), (goStr "a", Value.bool true)]).Nodup ∧
      stringifyEntries [(goStr "b", Value.int 1), (goStr "a", Value.bool true)] true =
        stringifyEntries [(goStr "a", Value.bool true), (goStr "b", Value.int 1)] true :=
  ⟨List.Perm.swap _ _ _, by decide,
    stringifyEntries_sorted_order_independent _ _ (List.Perm.swap _ _ _) (by decide)⟩

/-- C6, counterexample: the field set `{"a-b": 1, "a.b": 2}` enumerated in its two
orders, without sorting: both results have the single key `A_B`, with value `2` for one
order and `1` for the other. -/
theorem stringifyEntries_unsorted_values_differ :
    List.Perm [(goStr "a-b", Value.int 1), (goStr "a.b", Value.int 2)]
        [(goStr "a.b", Value.int 2), (goStr "a-b", Value.int 1)] ∧
      stringifyEntries [(goStr "a-b", Value.int 1), (goStr "a.b", Value.int 2)] false =
        [(goStr "A_B", goStr "2")] ∧
      stringifyEntries [(goStr "a.b", Value.int 2), (goStr "a-b", Value.int 1)] false =
        [(goStr "A_B", goStr "1")] ∧
      mapGet (stringifyEntries [(goStr "a-b", Value.int 1), (goStr "a.b", Value.int 2)] false)
          (goStr "A_B") ≠
        mapGet (stringifyEntries [(goStr "a.b", Value.int 2), (goStr "a-b", Value.int 1)] false)
          (goStr "A_B") :=
  ⟨List.Perm.swap _ _ _, by decide, by decide, by decide⟩

/-- C6, amended: with `sortEntries = false`, two enumerations of the same field set give
mappings with the same key set, and every field whose string form is shared by all the
fields that sanitise to its key (in particular a field whose key no other name sanitises
to) has that string form under its key in both mappings. -/
theorem stringifyEntries_unsorted_perm (d₁ d₂ : GoMap GoString Value) (hp : d₁.Perm d₂) :
    (∀ key, key ∈ mapKeys (stringifyEntries d₁ false) ↔
        key ∈ mapKeys (stringifyEntries d₂ false)) ∧
      ∀ kv ∈ d₁,
        (∀ kv' ∈ d₁, stringifyKey kv'.1 = stringifyKey kv.1 → Sprint kv'.2 = Sprint kv.2) →
        mapGet (stringifyEntries d₁ false) (stringifyKey kv.1) = some (Sprint kv.2) ∧
        mapGet (stringifyEntries d₂ false) (stringifyKey kv.1) = some (Sprint kv.2) := by
  constructor
  · intro key
    rw [mem_keys_stringifyEntries, mem_keys_stringifyEntries]
    constructor
    · rintro ⟨kv, hkv, h⟩
      exact ⟨kv, hp.mem_iff.1 hkv, h⟩
    · rintro ⟨kv, hkv, h⟩
      exact ⟨kv, hp.mem_iff.2 hkv, h⟩
  · intro kv hkv hall
    have key : ∀ d : GoMap GoString Value, (∀ x, x ∈ d ↔ x ∈ d₁) →
        mapGet (stringifyEntries d false) (stringifyKey kv.1) = some (Sprint kv.2) := by
      intro d hd
      rw [stringifyEntries_unsorted, mapGet_writes]
      apply lastWrite_const (entryPairs d) (stringifyKey kv.1, Sprint kv.2)
      · exact List.mem_map.2 ⟨kv, (hd kv).2 hkv, rfl⟩
      · intro q hq hq1
        obtain ⟨kv', hkv', rfl⟩ := List.mem_map.1 hq
        exact hall kv' ((hd kv').1 hkv') hq1
    exact ⟨key d₁ (fun _ => Iff.rfl), key d₂ (fun _ => hp.mem_iff.symm)⟩

/-- C6, amended, at the field set `{"path": "/var", "bytes-free": 0}` in its two orders. -/
theorem stringifyEntries_unsorted_perm_witness :
    List.Perm [(goStr "path", Value.str (goStr "/var")), (goStr "bytes-free", Value.int 0)]
        [(goStr "bytes-free", Value.int 0), (goStr "path", Value.str (goStr "/var"))] ∧
      mapGet (stringifyEntries
          [(goStr "path", Value.str (goStr "/var")), (goStr "bytes-free", Value.int 0)] false)
        (goStr "BYTES_FREE") = some (goStr "0") ∧
      mapGet (stringifyEntries
          [(goStr "bytes-free", Value.int 0), (goStr "path", Value.str (goStr "/var"))] false)
        (goStr "BYTES_FREE") = some (goStr "0") :=
  ⟨List.Perm.swap _ _ _,
    ((stringifyEntries_unsorted_perm
        [(goStr "path", Value.str (goStr "/var")), (goStr "bytes-free", Value.int 0)]
        [(goStr "bytes-free", Value.int 0), (goStr "path", Value.str (goStr "/var"))]
        (List.Perm.swap _ _ _)).2 (goStr "bytes-free", Value.int 0) (by decide)
      (by decide))⟩

/-- C7: with `sortEntries = true`, for a field set (distinct names) the key set of the
result is exactly the image of the names under `stringifyKey`, and every key is mapped
to the string form of the value of the field whose name is the greatest, in byte-wise
order, among the names that sanitise to that key. -/
theorem stringifyEntries_sorted_greatest (data : GoMap GoString Value)
    (hnd : (mapKeys data).Nodup) :
    (∀ key, key ∈ mapKeys (stringifyEntries data true) ↔
        ∃ kv ∈ data, stringifyKey kv.1 = key) ∧
      ∀ key ∈ mapKeys (stringifyEntries data true),
        ∃ kv ∈ data, stringifyKey kv.1 = key ∧
          (∀ kv' ∈ data, stringifyKey kv'.1 = key → strLess kv.1 kv'.1 = false) ∧
          mapGet (stringifyEntries data true) key = some (Sprint kv.2) := by
  refine ⟨mem_keys_stringifyEntries data true, ?_⟩
  intro key hkey
  obtain ⟨kv0, hkv0, hk0⟩ := (mem_keys_stringifyEntries data true key).1 hkey
  rw [stringifyEntries_sorted, mapGet_writes]
  have hsome : ∃ v, lastWrite ((sortStrings (mapKeys data)).map fun k =>
      stringifyEntry k (mapIndex Value.nil data k)) key = some v := by
    cases hl : lastWrite ((sortStrings (mapKeys data)).map fun k =>
      stringifyEntry k (mapIndex Value.nil data k)) key with
    | some v => exact ⟨v, rfl⟩
    | none =>
      exfalso
      refine (lastWrite_eq_none _ _).1 hl (stringifyEntry kv0.1 (mapIndex Value.nil data kv0.1))
        (List.mem_map.2 ⟨kv0.1, ?_, rfl⟩) hk0
      exact (sortStrings_perm (mapKeys data)).mem_iff.2 (List.mem_map.2 ⟨kv0, hkv0, rfl⟩)
  obtain ⟨v, hv⟩ := hsome
  obtain ⟨x, hx, hx1, hx2, hx3⟩ :=
    lastWrite_sorted strLe strLe_refl _ _ (sortStrings_sorted (mapKeys data)) key v hv
  have hxm : x ∈ mapKeys data := (sortStrings_perm (mapKeys data)).mem_iff.1 hx
  obtain ⟨kv, hkv, rfl⟩ := List.mem_map.1 hxm
  have hget : mapGet data kv.1 = some kv.2 := (mapGet_eq_some_iff data hnd kv.1 kv.2).2 hkv
  refine ⟨kv, hkv, hx1, ?_, ?_⟩
  · intro kv' hkv' hk'
    exact hx3 kv'.1
      ((sortStrings_perm (mapKeys data)).mem_iff.2 (List.mem_map.2 ⟨kv', hkv', rfl⟩)) hk'
  · rw [hv, ← hx2]
    simp only [stringifyEntry, mapIndex, hget, Option.getD_some]

/-- C7 at the field set `{"a.b": 2, "a-b": 1}`: the key `A_B` gets the value of `a.b`,
the greater of the two names. -/
theorem stringifyEntries_sorted_greatest_witness :
    (mapKeys [(goStr "a.b", Value.int 2), (goStr "a-b", Value.int 1)]).Nodup ∧
      mapKeys (stringifyEntries [(goStr "a.b", Value.int 2), (goStr "a-b", Value.int 1)] true) =
        [goStr "A_B"] ∧
      strLess (goStr "a-b") (goStr "a.b") = true ∧
      mapGet (stringifyEntries [(goStr "a.b", Value.int 2), (goStr "a-b", Value.int 1)] true)
        (goStr "A_B") = some (goStr "2") ∧
      ∃ kv ∈ [(goStr "a.b", Value.int 2), (goStr "a-b", Value.int 1)],
        stringifyKey kv.1 = goStr "A_B" ∧
          (∀ kv' ∈ [(goStr "a.b", Value.int 2), (goStr "a-b", Value.int 1)],
            stringifyKey kv'.1 = goStr "A_B" → strLess kv.1 kv'.1 = false) ∧
          mapGet (stringifyEntries [(goStr "a.b", Value.int 2), (goStr "a-b", Value.int 1)] true)
            (goStr "A_B") = some (Sprint kv.2) :=
  ⟨by decide, by decide, by decide, by decide,
    (stringifyEntries_sorted_greatest [(goStr "a.b", Value.int 2), (goStr "a-b", Value.int 1)]
      (by decide)).2 (goStr "A_B") (by decide)⟩

/-- C8: `severityMap` is defined on the six levels Panic, Fatal, Error, Warn, Info,
Debug and maps them to Emergency (0), Critical (2), Error (3), Warning (4), Info (6),
Debug (7), which are pairwise distinct. -/
theorem severityMap_table :
    [PanicLevel, FatalLevel, ErrorLevel, WarnLevel, InfoLevel, DebugLevel].map
        (mapGet severityMap) =
        [some PriEmerg, some PriCrit, some PriErr, some PriWarning, some PriInfo,
          some PriDebug] ∧
      [PriEmerg, PriCrit, PriErr, PriWarning, PriInfo, PriDebug] = [0, 2, 3, 4, 6, 7] ∧
      [PanicLevel, FatalLevel, ErrorLevel, WarnLevel, InfoLevel, DebugLevel].map
        (mapIndex 0 severityMap) = [0, 2, 3, 4, 6, 7] ∧
      ([PanicLevel, FatalLevel, ErrorLevel, WarnLevel, InfoLevel, DebugLevel].map
        (mapIndex 0 severityMap)).Nodup := by
  refine ⟨by decide, by decide, by decide, by decide⟩

/-- C9: for a level that is none of the six mapped ones the lookup `severityMap[level]`
finds no entry and yields the zero value 0, which is `PriEmerg`, the priority of
`PanicLevel`; `Fire` passes this priority to the send primitive. -/
theorem severityMap_unmapped (level : Level)
    (h : level ∉ [PanicLevel, FatalLevel, ErrorLevel, WarnLevel, InfoLevel, DebugLevel]) :
    mapGet severityMap level = none ∧
      mapIndex 0 severityMap level = 0 ∧
      mapIndex 0 severityMap level = PriEmerg ∧
      mapIndex 0 severityMap level = mapIndex 0 severityMap PanicLevel ∧
      ∀ (send : SendFn) (hook : JournalHook) (msg : GoString) (data : GoMap GoString Value),
        Fire send hook ⟨msg, level, data⟩ =
          send msg PriEmerg (stringifyEntries data hook.SortEntries) := by
  have hget : mapGet severityMap level = none := by
    simp only [PanicLevel, FatalLevel, ErrorLevel, WarnLevel, InfoLevel, DebugLevel,
      List.mem_cons, List.mem_singleton, List.not_mem_nil, or_false, not_or] at h
    obtain ⟨h0, h1, h2, h3, h4, h5⟩ := h
    simp only [severityMap, mapGet, PanicLevel, FatalLevel, ErrorLevel, WarnLevel, InfoLevel,
      DebugLevel]
    rw [if_neg (Ne.symm h5), if_neg (Ne.symm h4), if_neg (Ne.symm h3), if_neg (Ne.symm h2),
      if_neg (Ne.symm h1), if_neg (Ne.symm h0)]
  have hidx : mapIndex 0 severityMap level = 0 := by
    simp only [mapIndex, hget, Option.getD_none]
  refine ⟨hget, hidx, hidx, ?_, ?_⟩
  · rw [hidx]
    decide
  · intro send hook msg data
    simp only [Fire, hidx, PriEmerg]

/-- C9 at the level `TraceLevel`. -/
theorem severityMap_unmapped_witness :
    TraceLevel ∉ [PanicLevel, FatalLevel, ErrorLevel, WarnLevel, InfoLevel, DebugLevel] ∧
      mapGet severityMap TraceLevel = none ∧
      mapIndex 0 severityMap TraceLevel = 0 ∧
      mapIndex 0 severityMap TraceLevel = PriEmerg ∧
      mapIndex 0 severityMap TraceLevel = mapIndex 0 severityMap PanicLevel ∧
      ∀ (send : SendFn) (hook : JournalHook) (msg : GoString) (data : GoMap GoString Value),
        Fire send hook ⟨msg, TraceLevel, data⟩ =
          send msg PriEmerg (stringifyEntries data hook.SortEntries) :=
  ⟨by decide, severityMap_unmapped TraceLevel (by decide)⟩

/-- C10: for every hook, whatever its `SortEntries` flag, `Levels` returns the six
levels Panic, Fatal, Error, Warn, Info, Debug, each once and in this order, and a level
is among them exactly when it is a key of `severityMap`. -/
theorem Levels_spec (hook : JournalHook) :
    Levels hook = [PanicLevel, FatalLevel, ErrorLevel, WarnLevel, InfoLevel, DebugLevel] ∧
      Levels hook = [0, 1, 2, 3, 4, 5] ∧
      (Levels hook).Nodup ∧
      ∀ level : Level, level ∈ Levels hook ↔ level ∈ mapKeys severityMap := by
  refine ⟨rfl, rfl, ?_, ?_⟩
  · show ([PanicLevel, FatalLevel, ErrorLevel, WarnLevel, InfoLevel, DebugLevel] :
      List Level).Nodup
    decide
  intro level
  simp only [Levels, mapKeys, severityMap, PanicLevel, FatalLevel, ErrorLevel, WarnLevel,
    InfoLevel, DebugLevel, List.map_cons, List.map_nil, List.mem_cons, List.mem_singleton,
    List.not_mem_nil, or_false]
  tauto

/-- C11: with the journal as explicit state, `Fire` makes exactly one call of the send
primitive, with the message unchanged, the priority `severityMap[entry.Level]` and the
fields `stringifyEntries(entry.Data, hook.SortEntries)`, and returns its result
unchanged: it fails exactly when that send fails, with the same error, and nothing is
sent a second time. The record `disk full` at level Error with the fields `path` and
`bytes-free`, unsorted, is sent as `disk full`, priority 3 and the fields `PATH=/var`,
`BYTES_FREE=0`. -/
theorem Fire_sends_once (hook : JournalHook) (entry : Entry) :
    (∀ (respond : JournalLog → SendCall → Option GoString) (log : JournalLog),
      Fire (recordingSend respond) hook entry log =
        (respond log
            ⟨entry.Message, mapIndex 0 severityMap entry.Level,
              stringifyEntries entry.Data hook.SortEntries⟩,
          log ++
            [⟨entry.Message, mapIndex 0 severityMap entry.Level,
              stringifyEntries entry.Data hook.SortEntries⟩])) ∧
      (∀ send : SendFn,
        Fire send hook entry =
          send entry.Message (mapIndex 0 severityMap entry.Level)
            (stringifyEntries entry.Data hook.SortEntries)) ∧
      (∀ (send : SendFn) (err : GoString),
        Fire send hook entry = some err ↔
          send entry.Message (mapIndex 0 severityMap entry.Level)
            (stringifyEntries entry.Data hook.SortEntries) = some err) ∧
      (∀ (respond : JournalLog → SendCall → Option GoString) (log : JournalLog),
        Fire (recordingSend respond) { SortEntries := false }
            { Message := goStr "disk full", Level := ErrorLevel,
              Data := [(goStr "path", Value.str (goStr "/var")),
                (goStr "bytes-free", Value.int 0)] } log =
          (respond log
              ⟨goStr "disk full", 3,
                [(goStr "PATH", goStr "/var"), (goStr "BYTES_FREE", goStr "0")]⟩,
            log ++
              [⟨goStr "disk full", 3,
                [(goStr "PATH", goStr "/var"), (goStr "BYTES_FREE", goStr "0")]⟩])) ∧
      PriErr = 3 := by
  refine ⟨fun _ _ => rfl, fun _ => rfl, fun _ _ => Iff.rfl, ?_, rfl⟩
  intro respond log
  have hfields : stringifyEntries
      [(goStr "path", Value.str (goStr "/var")), (goStr "bytes-free", Value.int 0)] false =
      [(goStr "PATH", goStr "/var"), (goStr "BYTES_FREE", goStr "0")] := by decide
  have hpri : mapIndex 0 severityMap ErrorLevel = 3 := by decide
  simp only [Fire, recordingSend, hfields, hpri]

/-- C12, counterexample: with the probe false and the level of the logger at
`ErrorLevel`, `Enable` and `EnableSortEntries` emit no warning at all. -/
theorem enable_unavailable_silent :
    (Enable false
        { hooks := [], out := Writer.stderr, level := ErrorLevel, warnings := [] }).warnings =
        [] ∧
      (EnableSortEntries false
        { hooks := [], out := Writer.stderr, level := ErrorLevel, warnings := [] }).warnings =
        [] ∧
      (Enable false
        { hooks := [], out := Writer.stderr, level := ErrorLevel,
          warnings := [] }).warnings.length ≠ 1 := by
  refine ⟨by decide, by decide, by decide⟩

/-- C12, amended: when the probe `journal.Enabled()` returns false, `Enable` and
`EnableSortEntries` leave the registered hooks, the output sink and the level unchanged;
they emit exactly one warning through logrus when the level of the logger is
`WarnLevel` or above (as with the default `InfoLevel`), and none when it is below. -/
theorem enable_unavailable (fw : Logrus) :
    (Enable false fw).hooks = fw.hooks ∧
      (Enable false fw).out = fw.out ∧
      (Enable false fw).level = fw.level ∧
      (Enable false fw).warnings =
        (if WarnLevel ≤ fw.level then
          fw.warnings ++
            [goStr "Journal not available but user requests we log to it. Ignoring"]
        else fw.warnings) ∧
      (Enable false fw).warnings.length =
        fw.warnings.length + (if WarnLevel ≤ fw.level then 1 else 0) ∧
      EnableSortEntries false fw = Enable false fw ∧
      (Enable false
        { hooks := [Hook.foreign 1], out := Writer.stderr, level := InfoLevel,
          warnings := [] }) =
        { hooks := [Hook.foreign 1], out := Writer.stderr, level := InfoLevel,
          warnings :=
            [goStr "Journal not available but user requests we log to it. Ignoring"] } := by
  have he : Enable false fw =
      if WarnLevel ≤ fw.level then
        { fw with
          warnings := fw.warnings ++
            [goStr "Journal not available but user requests we log to it. Ignoring"] }
      else fw := rfl
  refine ⟨?_, ?_, ?_, ?_, ?_, rfl, by decide⟩ <;> rw [he] <;> split_ifs <;>
    first
      | rfl
      | simp

/-- C13: when the probe `journal.Enabled()` returns true, `Enable` (resp.
`EnableSortEntries`) adds exactly one `JournalHook`, with `SortEntries` false (resp.
true), after the hooks already registered, sets the output sink to the discard sink
and emits no warning; whatever the probe returns, the two entry points are `enable` at
the two values of the flag. -/
theorem enable_available (fw : Logrus) :
    (Enable true fw).hooks = fw.hooks ++ [Hook.journal { SortEntries := false }] ∧
      (Enable true fw).out = Writer.discard ∧
      (Enable true fw).warnings = fw.warnings ∧
      (EnableSortEntries true fw).hooks =
        fw.hooks ++ [Hook.journal { SortEntries := true }] ∧
      (EnableSortEntries true fw).out = Writer.discard ∧
      (EnableSortEntries true fw).warnings = fw.warnings ∧
      (∀ journalEnabled : Bool,
        Enable journalEnabled fw = enable journalEnabled false fw ∧
        EnableSortEntries journalEnabled fw = enable journalEnabled true fw) := by
  refine ⟨rfl, rfl, rfl, rfl, rfl, rfl, fun _ => ⟨rfl, rfl⟩⟩

/-! ## Lemmas on `fmt.Sprint` -/

theorem digitChar_toNat (d : Nat) (h : d < 10) : (Nat.digitChar d).toNat = 48 + d := by
  interval_cases d <;> rfl

theorem digitsValue_append (xs : GoString) (d : Nat) :
    digitsValue (xs ++ [d]) = 10 * digitsValue xs + (d - 48) := by
  simp [digitsValue, List.foldl_append]

/-- The digits that `Nat.toDigitsCore` puts in front of the accumulator. -/
theorem toDigitsCore_spec (fuel : Nat) :
    ∀ (n : Nat) (ds : List Char), n < fuel →
      ∃ pre : List Char, Nat.toDigitsCore 10 fuel n ds = pre ++ ds ∧ pre ≠ [] ∧
        (∀ c ∈ pre, 48 ≤ c.toNat ∧ c.toNat ≤ 57) ∧
        digitsValue (pre.map Char.toNat) = n ∧
        (pre.head?.map Char.toNat = some 48 → n = 0) := by
  induction fuel with
  | zero =>
    intro n ds h
    omega
  | succ fuel ih =>
    intro n ds h
    have hd : (Nat.digitChar (n % 10)).toNat = 48 + n % 10 :=
      digitChar_toNat (n % 10) (Nat.mod_lt _ (by decide))
    simp only [Nat.toDigitsCore]
    by_cases h0 : n / 10 = 0
    · rw [if_pos h0]
      refine ⟨[Nat.digitChar (n % 10)], rfl, by simp, ?_, ?_, ?_⟩
      · intro c hc
        rw [List.mem_singleton.1 hc, hd]
        omega
      · simp only [List.map_cons, List.map_nil, digitsValue, List.foldl_cons, List.foldl_nil,
          hd]
        omega
      · intro hh
        simp only [List.head?_cons, Option.map_some', hd, Option.some.injEq] at hh
        omega
    · rw [if_neg h0]
      obtain ⟨pre, hpre, hne, hdig, hval, hlead⟩ :=
        ih (n / 10) (Nat.digitChar (n % 10) :: ds) (by omega)
      refine ⟨pre ++ [Nat.digitChar (n % 10)], ?_, by simp, ?_, ?_, ?_⟩
      · rw [hpre]
        simp
      · intro c hc
        rcases List.mem_append.1 hc with hc | hc
        · exact hdig c hc
        · rw [List.mem_singleton.1 hc, hd]
          omega
      · rw [List.map_append, List.map_cons, List.map_nil, digitsValue_append, hval, hd]
        omega
      · intro hh
        exfalso
        cases pre with
        | nil => exact hne rfl
        | cons c pre =>
          apply h0
          apply hlead
          simpa using hh

/-- The text of a natural number: decimal digits, not empty, that denote the number,
with a leading `0` only for the number 0. -/
theorem decimal_spec (n : Nat) :
    decimal n ≠ [] ∧ (decimal n).all isDigitByte = true ∧ digitsValue (decimal n) = n ∧
      ((decimal n).head? ≠ some 48 ∨ n = 0) := by
  obtain ⟨pre, hpre, hne, hdig, hval, hlead⟩ := toDigitsCore_spec (n + 1) n [] (by omega)
  have hdec : decimal n = pre.map Char.toNat := by
    simp only [decimal, Nat.toDigits, hpre, List.append_nil]
  rw [hdec]
  refine ⟨by simpa using hne, ?_, hval, ?_⟩
  · rw [List.all_eq_true]
    intro b hb
    obtain ⟨c, hc, rfl⟩ := List.mem_map.1 hb
    have := hdig c hc
    simp only [isDigitByte, decide_eq_true_eq]
    exact this
  · by_cases hn : n = 0
    · exact Or.inr hn
    · refine Or.inl ?_
      intro hh
      apply hn
      apply hlead
      rw [← hh, List.head?_map]

/-- C14: `stringifyEntry(k, v)` is the pair of `stringifyKey(k)` and the default text of
`v`; the first component does not depend on `v`, the second not on `k`. The default
text of an integer is its decimal digits, after a `-` when it is negative; that of a
boolean is `true` or `false`; that of a string is the string itself, unchanged. -/
theorem stringifyEntry_spec (k : GoString) (v : Value) :
    stringifyEntry k v = (stringifyKey k, Sprint v) ∧
      (∀ v' : Value, (stringifyEntry k v').1 = (stringifyEntry k v).1) ∧
      (∀ k' : GoString, (stringifyEntry k' v).2 = (stringifyEntry k v).2) ∧
      (∀ i : Int,
        Sprint (Value.int i) = if i < 0 then 45 :: decimal i.natAbs else decimal i.natAbs) ∧
      (∀ n : Nat,
        decimal n ≠ [] ∧ (decimal n).all isDigitByte = true ∧ digitsValue (decimal n) = n ∧
          ((decimal n).head? ≠ some 48 ∨ n = 0)) ∧
      Sprint (Value.bool true) = goStr "true" ∧
      Sprint (Value.bool false) = goStr "false" ∧
      (∀ s : GoString, Sprint (Value.str s) = s ∧ (stringifyEntry k (Value.str s)).2 = s) ∧
      Sprint (Value.int 0) = goStr "0" ∧
      Sprint (Value.int 1234) = goStr "1234" ∧
      Sprint (Value.int (-20)) = goStr "-20" ∧
      stringifyEntry (goStr "bytes-free") (Value.str (goStr "a-b c")) =
        (goStr "BYTES_FREE", goStr "a-b c") := by
  refine ⟨rfl, fun _ => rfl, fun _ => rfl, ?_, decimal_spec, rfl, rfl, fun _ => ⟨rfl, rfl⟩,
    by decide, by decide, by decide, by decide⟩
  intro i
  cases i with
  | ofNat n =>
    have h : ¬ (Int.ofNat n < 0) := Int.not_lt.2 (Int.ofNat_nonneg n)
    rw [if_neg h]
    rfl
  | negSucc n =>
    have h : Int.negSucc n < 0 := Int.negSucc_lt_zero n
    rw [if_pos h]
    rfl

/-! ## Further lemmas on `stringifyKey` -/

theorem stringifyOp_keyByte_id (b : Nat) (h : isKeyByte b = true) :
    (stringifyOp (Int.ofNat b)).toNat = b := by
  simp only [isKeyByte, decide_eq_true_eq] at h
  simp only [stringifyOp, Int.ofNat_eq_coe]
  split_ifs <;> omega

/-- A string of legal key bytes is its own image under `strings.Map(stringifyOp, ·)`. -/
theorem stringsMap_id (k : GoString) (h : ∀ b ∈ k, isKeyByte b = true) :
    stringsMap stringifyOp k = k := by
  have hr : rangeRunes k = k.map Int.ofNat := by
    apply rangeRunes_ascii
    intro b hb
    have := h b hb
    simp only [isKeyByte, decide_eq_true_eq] at this
    omega
  rw [stringsMap_stringifyOp, hr, List.map_map]
  conv_rhs => rw [← List.map_id k]
  apply List.map_congr_left
  intro b hb
  exact stringifyOp_keyByte_id b (h b hb)

theorem stringifyKey_of_keyBytes (k : GoString) (h : ∀ b ∈ k, isKeyByte b = true) :
    stringifyKey k = if k.head? = some 95 then k.tail else k := by
  rw [stringifyKey_eq, stringsMap_id k h]

theorem rangeRunes_toNat (l : List Int) (hl : ∀ c ∈ l, 0 ≤ c ∧ c < 128) :
    rangeRunes (l.map Int.toNat) = l := by
  rw [rangeRunes_ascii]
  · rw [List.map_map]
    conv_rhs => rw [← List.map_id l]
    apply List.map_congr_left
    intro c hc
    have := hl c hc
    simp only [Function.comp, Int.ofNat_eq_coe, id]
    omega
  · intro b hb
    obtain ⟨c, hc, rfl⟩ := List.mem_map.1 hb
    have := hl c hc
    omega

theorem mappedRunes_bounds (k : GoString) : ∀ c ∈ mappedRunes k, 0 ≤ c ∧ c < 128 := by
  intro c hc
  obtain ⟨r, _, rfl⟩ := List.mem_map.1 hc
  exact stringifyOp_bounds r

/-- The characters of the key. -/
theorem rangeRunes_stringifyKey (k : GoString) :
    rangeRunes (stringifyKey k) =
      if (mappedRunes k).head? = some 95 then (mappedRunes k).tail else mappedRunes k := by
  rw [stringifyKey_runes]
  apply rangeRunes_toNat
  intro c hc
  split_ifs at hc
  · exact mappedRunes_bounds k c (List.mem_of_mem_tail hc)
  · exact mappedRunes_bounds k c hc

theorem rangeRunes_eq_nil (k : GoString) : rangeRunes k = [] ↔ k = [] := by
  cases k with
  | nil => simp [rangeRunes, rangeRunesFrom]
  | cons b rest => simp [rangeRunes, rangeRunesFrom]

theorem stringifyOp_eq_underscore (r : Int) : stringifyOp r = 95 ↔ isAlnum r = false := by
  simp only [isAlnum, decide_eq_false_iff_not, stringifyOp]
  split_ifs <;> omega

theorem stringifyOp_idem (r : Int) : stringifyOp (stringifyOp r) = stringifyOp r := by
  simp only [stringifyOp]
  split_ifs <;> omega

/-- C15, at the failing input: the name `__`, which consists of two underscores, is
sanitised to `_` and not to the empty key, because only one leading `_` is trimmed. -/
theorem stringifyKey_two_underscores :
    goStr "__" = List.replicate 2 95 ∧ stringifyKey (goStr "__") = goStr "_" ∧
      stringifyKey (goStr "__") ≠ [] := by
  refine ⟨by decide, by decide, by decide⟩

/-- C16: for every string, with non-ASCII characters or not, the key consists of
one-byte characters that are all in `A-Z`, `0-9` or `_`, and it has as many characters
as the name, or one less: one less exactly when the image of the name begins
with `_`. -/
theorem stringifyKey_chars (k : GoString) :
    (stringifyKey k).all isKeyByte = true ∧
      rangeRunes (stringifyKey k) = (stringifyKey k).map Int.ofNat ∧
      ((rangeRunes (stringifyKey k)).length = (rangeRunes k).length ∨
        (rangeRunes (stringifyKey k)).length + 1 = (rangeRunes k).length) ∧
      (rangeRunes (stringifyKey k)).length =
        (rangeRunes k).length - (if (mappedRunes k).head? = some 95 then 1 else 0) ∧
      stringifyKey (goStr "naïve") = goStr "NA_VE" ∧
      stringifyKey (goStr "é€x") = goStr "_X" := by
  have hlen : (rangeRunes (stringifyKey k)).length =
      (rangeRunes k).length - (if (mappedRunes k).head? = some 95 then 1 else 0) := by
    rw [rangeRunes_stringifyKey]
    split_ifs
    · simp [mappedRunes]
    · simp [mappedRunes]
  have hpos : (mappedRunes k).head? = some 95 → 0 < (rangeRunes k).length := by
    intro hh
    cases hr : rangeRunes k with
    | nil => simp [mappedRunes, hr] at hh
    | cons r R => simp
  refine ⟨?_, ?_, ?_, hlen, by decide, by decide⟩
  · rw [List.all_eq_true]
    exact stringifyKey_keyBytes k
  · apply rangeRunes_ascii
    intro b hb
    have := stringifyKey_keyBytes k b hb
    simp only [isKeyByte, decide_eq_true_eq] at this
    omega
  · by_cases hh : (mappedRunes k).head? = some 95
    · have := hpos hh
      rw [if_pos hh] at hlen
      omega
    · rw [if_neg hh] at hlen
      omega

/-- C17: the key is empty exactly when the name is empty or is a single character that
is neither a letter nor a digit; so a name of two or more characters has a non-empty
key. -/
theorem stringifyKey_eq_nil (k : GoString) :
    (stringifyKey k = [] ↔ k = [] ∨ ∃ r, rangeRunes k = [r] ∧ isAlnum r = false) ∧
      ((rangeRunes k).length < 2 ∨ stringifyKey k ≠ []) := by
  have hk := stringifyKey_runes k
  have hnil := rangeRunes_eq_nil k
  unfold mappedRunes at hk
  cases hr : rangeRunes k with
  | nil =>
    rw [hr] at hk hnil
    have hk0 : k = [] := hnil.1 rfl
    refine ⟨?_, Or.inl (by simp)⟩
    rw [hk]
    simp [hk0]
  | cons r R =>
    rw [hr] at hk hnil
    have hk0 : k ≠ [] := fun h => by simpa using hnil.2 h
    cases R with
    | nil =>
      refine ⟨?_, Or.inl (by simp)⟩
      rw [hk]
      simp only [List.map_cons, List.map_nil, List.head?_cons, Option.some.injEq,
        List.tail_cons, hk0, false_or, List.cons.injEq, and_true, exists_eq_left']
      rw [← stringifyOp_eq_underscore]
      by_cases h95 : stringifyOp r = 95 <;> simp [h95]
    | cons r2 R2 =>
      have hne : stringifyKey k ≠ [] := by
        rw [hk]
        simp only [List.map_cons, List.head?_cons, Option.some.injEq, List.tail_cons]
        split_ifs <;> simp
      refine ⟨?_, Or.inr hne⟩
      constructor
      · intro h
        exact absurd h hne
      · rintro (h | ⟨r', h, _⟩)
        · exact absurd h hk0
        · simp at h

/-! ## Lemmas on results without colliding keys -/

theorem mapSet_of_not_mem {κ ν : Type} [DecidableEq κ] (m : GoMap κ ν) (k : κ) (v : ν)
    (h : k ∉ mapKeys m) : mapSet m k v = m ++ [(k, v)] := by
  induction m with
  | nil => rfl
  | cons p m ih =>
    obtain ⟨a, b⟩ := p
    simp only [mapKeys, List.map_cons, List.mem_cons, not_or] at h
    simp only [mapSet, if_neg (Ne.symm h.1), List.cons_append]
    rw [ih h.2]

/-- Writes to pairwise distinct new keys add the pairs in order. -/
theorem foldl_mapSet_nodup {κ ν : Type} [DecidableEq κ] (ps : List (κ × ν)) (m : GoMap κ ν)
    (h : (mapKeys m ++ mapKeys ps).Nodup) :
    ps.foldl (fun m p => mapSet m p.1 p.2) m = m ++ ps := by
  induction ps generalizing m with
  | nil => simp
  | cons p ps ih =>
    have hp : p.1 ∉ mapKeys m := by
      intro hm
      have := (List.nodup_append.1 h).2.2
      exact this hm (by simp [mapKeys])
    rw [List.foldl_cons, mapSet_of_not_mem m p.1 p.2 hp, ih]
    · simp
    · simp only [mapKeys, List.map_append, List.map_cons, List.map_nil, List.append_assoc,
        List.singleton_append] at h ⊢
      exact h

theorem length_mapSet_le {κ ν : Type} [DecidableEq κ] (m : GoMap κ ν) (k : κ) (v : ν) :
    (mapSet m k v).length ≤ m.length + 1 := by
  induction m with
  | nil => simp [mapSet]
  | cons p m ih =>
    obtain ⟨a, b⟩ := p
    simp only [mapSet]
    split_ifs
    · simp
    · simp only [List.length_cons]
      omega

theorem length_foldl_mapSet_le {κ ν : Type} [DecidableEq κ] (ps : List (κ × ν))
    (m : GoMap κ ν) :
    (ps.foldl (fun m p => mapSet m p.1 p.2) m).length ≤ m.length + ps.length := by
  induction ps generalizing m with
  | nil => simp
  | cons p ps ih =>
    rw [List.foldl_cons]
    have h1 := ih (mapSet m p.1 p.2)
    have h2 := length_mapSet_le m p.1 p.2
    simp only [List.length_cons]
    omega

/-- The result never has more entries than the field set. -/
theorem length_stringifyEntries_le (d : GoMap GoString Value) (b : Bool) :
    (stringifyEntries d b).length ≤ d.length := by
  cases b with
  | false =>
    rw [stringifyEntries_unsorted]
    have := length_foldl_mapSet_le (entryPairs d) []
    simpa [entryPairs] using this
  | true =>
    rw [stringifyEntries_sorted]
    have h := length_foldl_mapSet_le
      ((sortStrings (mapKeys d)).map fun k => stringifyEntry k (mapIndex Value.nil d k)) []
    have hl : (sortStrings (mapKeys d)).length = d.length := by
      rw [(sortStrings_perm (mapKeys d)).length_eq]
      simp [mapKeys]
    simpa [hl] using h

/-- When the names sanitise to pairwise distinct keys, the result is, up to the order
of its entries, the list of the sanitised fields. -/
theorem stringifyEntries_perm_entryPairs (d : GoMap GoString Value)
    (hinj : (d.map fun kv => stringifyKey kv.1).Nodup) (b : Bool) :
    (stringifyEntries d b).Perm (entryPairs d) := by
  have hkeys : mapKeys (entryPairs d) = d.map fun kv => stringifyKey kv.1 := by
    simp [mapKeys, entryPairs, stringifyEntry, Function.comp_def]
  cases b with
  | false =>
    rw [stringifyEntries_unsorted, foldl_mapSet_nodup]
    · simp
    · rw [hkeys]
      simpa [mapKeys] using hinj
  | true =>
    have hnames : (mapKeys d).Nodup := by
      have h2 : d.map (fun kv => stringifyKey kv.1) = (mapKeys d).map stringifyKey := by
        simp [mapKeys, Function.comp_def]
      rw [h2] at hinj
      exact List.Nodup.of_map _ hinj
    have hsp := sortStrings_perm (mapKeys d)
    rw [stringifyEntries_sorted, foldl_mapSet_nodup]
    · rw [List.nil_append]
      have h1 := hsp.map fun k => stringifyEntry k (mapIndex Value.nil d k)
      refine h1.trans ?_
      have h2 : (mapKeys d).map (fun k => stringifyEntry k (mapIndex Value.nil d k)) =
          entryPairs d := by
        simp only [mapKeys, entryPairs, List.map_map]
        apply List.map_congr_left
        intro kv hkv
        have hget : mapGet d kv.1 = some kv.2 :=
          (mapGet_eq_some_iff d hnames kv.1 kv.2).2 hkv
        simp only [Function.comp, mapIndex, hget, Option.getD_some]
      rw [h2]
    · have h3 : mapKeys ((sortStrings (mapKeys d)).map fun k =>
          stringifyEntry k (mapIndex Value.nil d k)) =
          (sortStrings (mapKeys d)).map stringifyKey := by
        simp [mapKeys, stringifyEntry, Function.comp_def]
      rw [h3]
      have h4 : ((sortStrings (mapKeys d)).map stringifyKey).Perm
          (d.map fun kv => stringifyKey kv.1) := by
        have := hsp.map stringifyKey
        simpa [mapKeys, Function.comp_def] using this
      simpa [mapKeys] using h4.nodup_iff.2 hinj

theorem mapKeys_entryPairs (d : GoMap GoString Value) :
    mapKeys (entryPairs d) = d.map fun kv => stringifyKey kv.1 := by
  simp [mapKeys, entryPairs, stringifyEntry, Function.comp_def]

/-- C18: when the names of a field set sanitise to pairwise distinct keys, every
enumeration order and both values of `sortEntries` give the same mapping, which has
exactly one entry per field, with key `stringifyKey(name)` and the string form of the
value. In general the result has at most as many entries as the field set. -/
theorem stringifyEntries_injective (d₁ d₂ : GoMap GoString Value) (hp : d₁.Perm d₂)
    (hinj : (d₁.map fun kv => stringifyKey kv.1).Nodup) :
    (∀ b : Bool, (stringifyEntries d₂ b).Perm (entryPairs d₁)) ∧
      (∀ (b b' : Bool) (key : GoString),
        mapGet (stringifyEntries d₁ b) key = mapGet (stringifyEntries d₂ b') key) ∧
      (∀ b : Bool, (stringifyEntries d₂ b).length = d₁.length) ∧
      (∀ b : Bool, ∀ kv ∈ d₁,
        mapGet (stringifyEntries d₂ b) (stringifyKey kv.1) = some (Sprint kv.2)) ∧
      (∀ (d : GoMap GoString Value) (b : Bool), (stringifyEntries d b).length ≤ d.length) := by
  have hinj2 : (d₂.map fun kv => stringifyKey kv.1).Nodup :=
    (hp.map fun kv => stringifyKey kv.1).nodup_iff.1 hinj
  have hperm1 : ∀ b : Bool, (stringifyEntries d₁ b).Perm (entryPairs d₁) :=
    stringifyEntries_perm_entryPairs d₁ hinj
  have hperm2 : ∀ b : Bool, (stringifyEntries d₂ b).Perm (entryPairs d₁) := by
    intro b
    refine (stringifyEntries_perm_entryPairs d₂ hinj2 b).trans ?_
    exact (hp.map fun kv => stringifyEntry kv.1 kv.2).symm
  have hnd : ∀ m : GoMap GoString GoString, m.Perm (entryPairs d₁) → (mapKeys m).Nodup := by
    intro m hm
    have h1 : (mapKeys m).Perm (mapKeys (entryPairs d₁)) := hm.map Prod.fst
    rw [mapKeys_entryPairs] at h1
    exact h1.nodup_iff.2 hinj
  refine ⟨hperm2, ?_, ?_, ?_, length_stringifyEntries_le⟩
  · intro b b' key
    exact mapGet_perm _ _ ((hperm1 b).trans (hperm2 b').symm) (hnd _ (hperm1 b)) key
  · intro b
    rw [(hperm2 b).length_eq]
    simp [entryPairs]
  · intro b kv hkv
    rw [mapGet_eq_some_iff _ (hnd _ (hperm2 b))]
    apply (hperm2 b).mem_iff.2
    exact List.mem_map.2 ⟨kv, hkv, rfl⟩

/-- C18 at the field set `{"path": "/var", "bytes-free": 0}` in its two orders. -/
theorem stringifyEntries_injective_witness :
    List.Perm [(goStr "path", Value.str (goStr "/var")), (goStr "bytes-free", Value.int 0)]
        [(goStr "bytes-free", Value.int 0), (goStr "path", Value.str (goStr "/var"))] ∧
      ([(goStr "path", Value.str (goStr "/var")), (goStr "bytes-free", Value.int 0)].map
        fun kv => stringifyKey kv.1).Nodup ∧
      stringifyEntries
          [(goStr "bytes-free", Value.int 0), (goStr "path", Value.str (goStr "/var"))] false =
        [(goStr "BYTES_FREE", goStr "0"), (goStr "PATH", goStr "/var")] ∧
      ∀ (b b' : Bool) (key : GoString),
        mapGet (stringifyEntries
            [(goStr "path", Value.str (goStr "/var")), (goStr "bytes-free", Value.int 0)] b)
          key =
        mapGet (stringifyEntries
            [(goStr "bytes-free", Value.int 0), (goStr "path", Value.str (goStr "/var"))] b')
          key :=
  ⟨List.Perm.swap _ _ _, by decide, by decide,
    (stringifyEntries_injective
      [(goStr "path", Value.str (goStr "/var")), (goStr "bytes-free", Value.int 0)]
      [(goStr "bytes-free", Value.int 0), (goStr "path", Value.str (goStr "/var"))]
      (List.Perm.swap _ _ _) (by decide)).2.1⟩

/-- The priority that the lookup `severityMap[level]` gives for each level. -/
theorem severityMap_index (level : Nat) :
    mapIndex 0 severityMap level =
      if level = 0 then 0 else if level = 1 then 2 else if level = 2 then 3
      else if level = 3 then 4 else if level = 4 then 6 else if level = 5 then 7 else 0 := by
  by_cases h : level ≤ 5
  · interval_cases level <;> rfl
  · simp only [mapIndex, severityMap, mapGet, PanicLevel, FatalLevel, ErrorLevel, WarnLevel,
      InfoLevel, DebugLevel]
    have h0 : ¬ (0 = level) := by omega
    have h1 : ¬ (1 = level) := by omega
    have h2 : ¬ (2 = level) := by omega
    have h3 : ¬ (3 = level) := by omega
    have h4 : ¬ (4 = level) := by omega
    have h5 : ¬ (5 = level) := by omega
    rw [if_neg h5, if_neg h4, if_neg h3, if_neg h2, if_neg h1, if_neg h0,
      if_neg (Ne.symm h0), if_neg (Ne.symm h1), if_neg (Ne.symm h2), if_neg (Ne.symm h3),
      if_neg (Ne.symm h4), if_neg (Ne.symm h5)]
    rfl

/-- C19: on the six mapped levels the severity mapping is strictly increasing: a level
that is more severe (smaller, in the order Panic, Fatal, Error, Warn, Info, Debug) gets
a numerically smaller priority; the priorities Alert (1) and Notice (5) are the result
of no lookup. -/
theorem severityMap_strict_mono (a b : Level)
    (ha : a ∈ [PanicLevel, FatalLevel, ErrorLevel, WarnLevel, InfoLevel, DebugLevel])
    (hb : b ∈ [PanicLevel, FatalLevel, ErrorLevel, WarnLevel, InfoLevel, DebugLevel])
    (hlt : a < b) :
    mapIndex 0 severityMap a < mapIndex 0 severityMap b ∧
      ∀ level : Level,
        mapIndex 0 severityMap level ≠ PriAlert ∧ mapIndex 0 severityMap level ≠ PriNotice := by
  constructor
  · simp only [PanicLevel, FatalLevel, ErrorLevel, WarnLevel, InfoLevel, DebugLevel,
      List.mem_cons, List.mem_singleton, List.not_mem_nil, or_false] at ha hb
    rw [severityMap_index a, severityMap_index b]
    have hlt' : (a : Nat) < b := hlt
    rcases ha with rfl | rfl | rfl | rfl | rfl | rfl <;>
      rcases hb with rfl | rfl | rfl | rfl | rfl | rfl <;>
      first
        | exact absurd hlt' (by decide)
        | decide
  · intro level
    rw [severityMap_index level]
    simp only [PriAlert, PriNotice]
    constructor <;> split_ifs <;> decide

/-- C19 at the levels Fatal and Info, with the priorities 2 and 6. -/
theorem severityMap_strict_mono_witness :
    FatalLevel < InfoLevel ∧
      mapIndex 0 severityMap FatalLevel = 2 ∧ mapIndex 0 severityMap InfoLevel = 6 ∧
      mapIndex 0 severityMap FatalLevel < mapIndex 0 severityMap InfoLevel ∧
      ∀ level : Level,
        mapIndex 0 severityMap level ≠ PriAlert ∧ mapIndex 0 severityMap level ≠ PriNotice :=
  ⟨by decide, by decide, by decide,
    severityMap_strict_mono FatalLevel InfoLevel (by decide) (by decide) (by decide)⟩

/-- C20: a journal-legal name (non-empty, only `A-Z`, `0-9` and `_`, no leading `_`) is
a fixed point of `stringifyKey`; `stringifyOp` is idempotent on every rune, whereas
`stringifyKey` is not: `__x` gives `_X`, and `_X` gives `X`. -/
theorem stringifyKey_fixed_point (k : GoString) (h : journalLegalKey k) :
    stringifyKey k = k ∧
      (∀ r : Int, stringifyOp (stringifyOp r) = stringifyOp r) ∧
      stringifyKey (goStr "__x") = goStr "_X" ∧
      stringifyKey (stringifyKey (goStr "__x")) = goStr "X" ∧
      stringifyKey (stringifyKey (goStr "__x")) ≠ stringifyKey (goStr "__x") := by
  refine ⟨?_, stringifyOp_idem, by decide, by decide, by decide⟩
  rw [stringifyKey_of_keyBytes k h.2.1, if_neg h.2.2]

/-- C20 at the name `MY_KEY_OK`. -/
theorem stringifyKey_fixed_point_witness :
    journalLegalKey (goStr "MY_KEY_OK") ∧
      stringifyKey (goStr "MY_KEY_OK") = goStr "MY_KEY_OK" ∧
      (∀ r : Int, stringifyOp (stringifyOp r) = stringifyOp r) ∧
      stringifyKey (goStr "__x") = goStr "_X" ∧
      stringifyKey (stringifyKey (goStr "__x")) = goStr "X" ∧
      stringifyKey (stringifyKey (goStr "__x")) ≠ stringifyKey (goStr "__x") :=
  ⟨⟨by decide, by decide, by decide⟩,
    stringifyKey_fixed_point (goStr "MY_KEY_OK") ⟨by decide, by decide, by decide⟩⟩

end Journalhook
